import Mathlib

/-!
Verification development for the wealth-agent intake/rendering pipeline.

Strings from the Python source are modelled as lists of characters
(`Str`), Python dictionaries as insertion-ordered association lists
(`Rec`) with in-place update (`aset`, matching `d[k] = v`) and
`asetd` (matching `d.setdefault(k, v)`).  Each embedded function
mirrors one Python function of `app.py` / `pdf_filler.py`.
-/

namespace WA

/-- Character-list model of Python `str`. -/
abbrev Str := List Char

/-- Shorthand turning a Lean string literal into the character-list model. -/
def S (s : String) : Str := s.toList

/-- Python whitespace for `str.strip()` / `str.split()` (the characters relevant here). -/
def isWs (c : Char) : Bool := c = ' ' || c = '\t' || c = '\n' || c = '\r'

/-- `str.strip()`. -/
def trim (s : Str) : Str := ((s.dropWhile isWs).reverse.dropWhile isWs).reverse

/-- `str.lower()`. -/
def lower (s : Str) : Str := s.map Char.toLower

/-- Accumulator-based word splitter behind `tokens`. -/
def tokensAux : Str → Str → List Str
  | [], acc => if acc = [] then [] else [acc.reverse]
  | c :: cs, acc =>
      if isWs c then
        if acc = [] then tokensAux cs [] else acc.reverse :: tokensAux cs []
      else tokensAux cs (c :: acc)

/-- `str.split()` with no argument: split on whitespace runs, no empty parts. -/
def tokens (s : Str) : List Str := tokensAux s []

/-- `" ".join(parts)`. -/
def joinSp (parts : List Str) : Str := List.intercalate (S " ") parts

/-- Does `pat` occur as a contiguous run inside `s`? -/
def occursIn (pat : Str) : Str → Bool
  | [] => pat.isEmpty
  | c :: t => pat.isPrefixOf (c :: t) || occursIn pat t

/-- Substring test: Python `pat in s`. -/
def sub (pat : String) (s : Str) : Bool := occursIn (S pat) s

/-- Recursion core of `replaceAll`; the fuel bounds the number of characters
still to be consumed, so structural recursion on it is exact. -/
def replaceAllGo (pat rep : Str) : Nat → Str → Str
  | _, [] => []
  | 0, s => s
  | fuel + 1, c :: cs =>
      if !pat.isEmpty && pat.isPrefixOf (c :: cs) then
        rep ++ replaceAllGo pat rep fuel ((c :: cs).drop pat.length)
      else
        c :: replaceAllGo pat rep fuel cs

/-- `str.replace(pat, rep)` (all occurrences, left to right). -/
def replaceAll (pat rep s : Str) : Str := replaceAllGo pat rep s.length s

/-- Decimal rendering of a natural number (Python `str(i)` for the `Client i` labels). -/
def natStr (n : Nat) : Str := Nat.toDigits 10 n

/-! ### Association-list model of Python `dict` (insertion ordered) -/

/-- One label→value record. -/
abbrev Rec := List (Str × Str)

/-- First binding of key `k`, Python `d.get(k)`. -/
def aget? : Rec → Str → Option Str
  | [], _ => none
  | (k', v) :: t, k => if k' = k then some v else aget? t k

/-- Python `d.get(k, dflt)`. -/
def agetD (m : Rec) (k dflt : Str) : Str := (aget? m k).getD dflt

/-- Python `k in d`. -/
def keyMem (m : Rec) (k : Str) : Bool := (aget? m k).isSome

/-- Python `d[k] = v`: update in place if present, else append. -/
def aset : Rec → Str → Str → Rec
  | [], k, v => [(k, v)]
  | (k', v') :: t, k, v => if k' = k then (k', v) :: t else (k', v') :: aset t k v

/-- Python `d.setdefault(k, v)`. -/
def asetd (m : Rec) (k v : Str) : Rec := if keyMem m k then m else m ++ [(k, v)]

/-- The key list of a record. -/
def keys (m : Rec) : List Str := m.map Prod.fst

/-! ### `_parse_date` and `_normalize_fields` (app.py) -/

/-- app.py `_parse_date`: keep only the date portion when a time component follows. -/
def parseDate (v : Str) : Str :=
  let val := trim v
  if val.contains ' ' then (tokens val).headD [] else val

/-- Label-classification outcome of the ordered `if`/`elif` chain in `_normalize_fields`.
One constructor per branch, in source order. -/
inductive Rule where
  | nameSplit | first | last | dob | address | city | state | zip | phone | email
  | income | networth | liquid | employer | occupation | objective | riskTol
  | horizon | referral | advisor | notes | was | fee | passthrough
deriving DecidableEq

/-- The ordered `if`/`elif` chain of `_normalize_fields`, applied to the
lower-cased trimmed label `kl`; the first matching rule wins. -/
def classify (kl : Str) : Rule :=
  if (sub "first" kl && sub "last" kl) || (kl = S "full name" || kl = S "name") then .nameSplit
  else if kl = S "first name" || kl = S "firstname" || kl = S "first" then .first
  else if kl = S "last name" || kl = S "lastname" || kl = S "last" then .last
  else if kl = S "dob" || kl = S "date of birth" || kl = S "birthdate" || kl = S "birth date" then .dob
  else if kl = S "address" then .address
  else if kl = S "city" then .city
  else if kl = S "state" then .state
  else if kl = S "zip" || kl = S "zip code" || kl = S "postal code" then .zip
  else if kl = S "phone" then .phone
  else if kl = S "email" then .email
  else if sub "annual income" kl then .income
  else if sub "net worth" kl then .networth
  else if sub "liquid" kl then .liquid
  else if kl = S "employer" || kl = S "company" || kl = S "firm" then .employer
  else if sub "occupation" kl || sub "title" kl || sub "job title" kl then .occupation
  else if sub "investment objective" kl || sub "objective" kl || sub "investment goal" kl then .objective
  else if sub "risk" kl && sub "tolerance" kl then .riskTol
  else if sub "time horizon" kl || sub "horizon" kl then .horizon
  else if sub "referral" kl || sub "lead source" kl || sub "referred" kl || sub "source" kl then .referral
  else if sub "advisor" kl then .advisor
  else if sub "note" kl || sub "account" kl then .notes
  else if sub "was" kl then .was
  else if sub "fee" kl then .fee
  else .passthrough

/-- Canonical target key written by each simple single-`aset` rule. -/
def simpleTarget : Rule → Str
  | .first => S "First Name"
  | .last => S "Last Name"
  | .address => S "Address"
  | .city => S "City"
  | .state => S "State"
  | .zip => S "ZIP"
  | .phone => S "Phone"
  | .email => S "Email"
  | .income => S "Annual Income"
  | .networth => S "Est. Net Worth"
  | .liquid => S "Liquid Assets"
  | .employer => S "Employer"
  | .occupation => S "Occupation"
  | .riskTol => S "Risk Tolerance"
  | .horizon => S "Time Horizon (yrs)"
  | .referral => S "Referral Source"
  | .was => S "WAS"
  | .fee => S "Fee"
  | _ => []

/-- Is the rule a plain `out[target] = v` assignment? -/
def isSimple : Rule → Bool
  | .nameSplit | .dob | .objective | .advisor | .notes | .passthrough => false
  | _ => true

/-- Loop body of `_normalize_fields`: process one raw `label, value` pair into `out`. -/
def step (out : Rec) (kv : Str × Str) : Rec :=
  let k := trim kv.1
  let kl := lower k
  let v := trim kv.2
  match classify kl with
  | .nameSplit =>
      match tokens v with
      | a :: b :: rest =>
          let out1 := aset out (S "First Name") a
          let out2 := aset out1 (S "Last Name") ((b :: rest).getLastD b)
          if rest.length = 1 then aset out2 (S "Middle Initial") b else out2
      | _ => aset out (S "First Name") v
  | .dob => aset out (S "Date of Birth") (parseDate v)
  | .objective => asetd (asetd out (S "Investment Goal") v) (S "Risk Tolerance") v
  | .advisor => asetd out (S "Referral Source") v
  | .notes =>
      let existing := agetD out (S "Notes") []
      aset out (S "Notes") (if existing ≠ [] then trim (existing ++ S "  " ++ v) else v)
  | .passthrough => aset out k v
  | r => aset out (simpleTarget r) v

/-- app.py `_normalize_fields`: fold the rule chain over the raw record in insertion order. -/
def normalizeFields (raw : Rec) : Rec := raw.foldl step []

/-! ### `_split_name` and `_parse_address` (pdf_filler.py) -/

/-- pdf_filler.py `_split_name`: return `(first, mi, last)` from a full-name string. -/
def splitName (fullName : Str) : Str × Str × Str :=
  match tokens (trim fullName) with
  | [] => ([], [], [])
  | [a] => (a, [], [])
  | [a, b] => (a, [], b)
  | a :: b :: rest => (a, [(b.headD ' ').toUpper], joinSp rest)

/-- pdf_filler.py `_parse_address`: best-effort `(street, city, state, zip, country)`. -/
def parseAddress (raw : Str) : Str × Str × Str × Str × Str :=
  if raw = [] then ([], [], [], [], S "USA")
  else
    let parts := (raw.splitOn ',').map trim
    match parts with
    | p0 :: p1 :: p2 :: _ =>
        let stZip := tokens (trim p2)
        (p0, p1, stZip.headD [], (stZip.drop 1).headD [], S "USA")
    | [p0, p1] => (p0, p1, [], [], S "USA")
    | _ => (raw, [], [], [], S "USA")

/-! ### `_read_intake_form` (app.py) -/

/-- Is a trimmed wide-layout cell value recorded directly
(Python `if v and v.lower() not in ("nan", "none")`)? -/
def cellKeep (v : Str) : Bool := !v.isEmpty && !(lower v = S "nan" || lower v = S "none")

/-- Inner loop body of the wide layout: handle the cell of party `i` for one
data row, where `root` is party 0's map at that moment and `m` is party `i`'s map. -/
def updCell (label : Str) (i : Nat) (root m : Rec) (c : Str) : Rec :=
  let v := trim c
  if cellKeep v then aset m label v
  else if 0 < i && !keyMem m label && keyMem root label then
    aset m label (agetD root label [])
  else m

/-- Iterate `updCell` over the value cells of one wide-layout data row,
stopping once the party index reaches the number of parties. -/
def wideCells (label : Str) : Nat → List Str → List Rec → List Rec
  | _, [], raws => raws
  | i, c :: cs, raws =>
      if h : i < raws.length then
        wideCells label (i + 1) cs (raws.set i (updCell label i (raws.headD []) (raws.get ⟨i, h⟩) c))
      else raws

/-- One wide-layout data row: skip blank/`nan`/`none` labels, then fill each party. -/
def rowStep (raws : List Rec) (row : List Str) : List Rec :=
  let label := trim (row.headD [])
  if label.isEmpty || lower label = S "nan" || lower label = S "none" then raws
  else wideCells label 0 row.tail raws

/-- Synthetic party label `Client i`. -/
def clientLabel (i : Nat) : Str := S "Client " ++ natStr i

/-- Final collection loop of the wide layout: normalize each surviving party,
attach its `__client_label__`, drop parties with empty maps. -/
def collectAux (labels : List Str) : Nat → List Rec → List Rec
  | _, [] => []
  | i, r :: rs =>
      if r ≠ [] then
        aset (normalizeFields r) (S "__client_label__") (labels.getD i (clientLabel (i + 1)))
          :: collectAux labels (i + 1) rs
      else collectAux labels (i + 1) rs

/-- Failure of `_read_intake_form` before layout detection (an empty sheet:
`df.iloc[0]` raises).  No `FormatError` exists anywhere in the code. -/
inductive ReadErr where
  | noRows
deriving DecidableEq

/-- Equality of `Except` results is decidable when both components are. -/
instance {ε α : Type} [DecidableEq ε] [DecidableEq α] : DecidableEq (Except ε α) := fun x y =>
  match x, y with
  | .ok a, .ok b =>
      if h : a = b then .isTrue (by rw [h]) else .isFalse (by intro hc; cases hc; exact h rfl)
  | .error a, .error b =>
      if h : a = b then .isTrue (by rw [h]) else .isFalse (by intro hc; cases hc; exact h rfl)
  | .ok _, .error _ => .isFalse (by intro hc; cases hc)
  | .error _, .ok _ => .isFalse (by intro hc; cases hc)

/-- Loop body of the key-value layout of `_read_intake_form`. -/
def kvStep (raw : Rec) (row : List Str) : Rec :=
  let label := trim (row.headD [])
  let val := trim (row.getD 1 [])
  if !label.isEmpty
      && !(lower label = S "nan" || lower label = S "none" || lower label = S "field") then
    aset raw label val
  else raw

/-- app.py `_read_intake_form`, on the table of cell strings read from the sheet. -/
def readIntakeForm (table : List (List Str)) : Except ReadErr (List Rec) :=
  match table with
  | [] => .error .noRows
  | row0 :: rest =>
      let firstRow := row0.map trim
      let col0 := lower (firstRow.headD [])
      let col1 := lower (firstRow.getD 1 [])
      if col0 = S "field" && col1 = S "value" then
        .ok [normalizeFields (rest.foldl kvStep [])]
      else
        let wide :=
          if col0.isEmpty || col0 = S "nan" || col0 = S "none" then
            (row0.tail.map trim, rest)
          else
            ((List.range (row0.length - 1)).map (fun i => clientLabel (i + 1)), row0 :: rest)
        let labels := wide.1
        let raws := wide.2.foldl rowStep (List.replicate labels.length [])
        .ok (collectAux labels 0 raws)

/-! ### Household composition (Register Client page, app.py) and `_full_name` -/

/-- app.py `_full_name`. -/
def fullName (c : Rec) : Str :=
  trim (joinSp (([agetD c (S "First Name") [], agetD c (S "Middle Initial") [],
    agetD c (S "Last Name") []]).filter (fun p => !p.isEmpty)))

/-- Attach parties 2.. as sequentially numbered children onto the primary record. -/
def addChildren : Rec → Nat → List Rec → Rec
  | h, _, [] => h
  | h, idx, c :: cs =>
      addChildren
        (aset (aset h (S "Child " ++ natStr idx ++ S " Name") (fullName c))
          (S "Child " ++ natStr idx ++ S " DOB") (agetD c (S "Date of Birth") []))
        (idx + 1) cs

/-- Joint / multi-party composition of the Register Client page: party 0 is the
primary, party 1 contributes the co-holder keys, parties 2.. become children. -/
def composeParsed (parsed : List Rec) : Option Rec :=
  match parsed with
  | [] => none
  | [x] => some x
  | h1 :: h2 :: rest =>
      let holder1 :=
        aset (aset h1 (S "Co-Account Holder Name") (fullName h2))
          (S "Co-Account Holder DOB") (agetD h2 (S "Date of Birth") [])
      some (addChildren holder1 1 rest)

/-! ### Client registry (app.py) -/

/-- One entry of `data/registered_clients.json`. -/
structure RegEntry where
  name : Str
  sfId : Str
  registeredAt : Str
  intake : Rec
  sfRecord : Rec
deriving DecidableEq

/-- The entry built by `_save_to_registry` (intake keys starting `__` dropped). -/
def mkRegEntry (name sfId ts : Str) (intake sfRecord : Rec) : RegEntry :=
  { name := name, sfId := sfId, registeredAt := ts,
    intake := intake.filter (fun kv => !(S "__").isPrefixOf kv.1), sfRecord := sfRecord }

/-- app.py `_save_to_registry`: drop every entry whose stored name equals the new
name case-insensitively, then append the new entry. -/
def saveToRegistry (records : List RegEntry) (name sfId ts : Str)
    (intake sfRecord : Rec) : List RegEntry :=
  (records.filter (fun r => lower r.name ≠ lower name)) ++ [mkRegEntry name sfId ts intake sfRecord]

/-- app.py `_registry_entry`: first entry whose name matches case-insensitively. -/
def registryEntry (records : List RegEntry) (name : Str) : Option RegEntry :=
  records.find? (fun r => lower r.name = lower name)

/-! ### Document renderer (pdf_filler.py) -/

/-- One fillable field of a PDF template. -/
structure Widget where
  name : Str
  value : Str
deriving DecidableEq

/-- A template is pages of fillable widgets; the environment maps a template
filename to its parsed form when the asset exists in the forms directory. -/
abbrev Templates := Str → Option (List (List Widget))

/-- One page of the fallback data-sheet document: the header band carries the
document title; the body is the rows rendered onto this page. -/
structure SimplePage where
  title : Str
  rows : List (Str × Str)
deriving DecidableEq

/-- A rendered document: fill mode keeps the template's pages with updated
widgets, fallback mode is the synthesized data sheet. -/
inductive RenderedDoc where
  | filled (doc : List (List Widget))
  | fallback (pages : List SimplePage)
deriving DecidableEq

/-- pdf_filler.py `_FORM_TITLES`. -/
def formTitles : Rec :=
  [(S "IWSPersonalApp_Dec2024.pdf", S "IWS Personal Account Application"),
   (S "IWSTrustApp_Dec2024.pdf", S "IWS Trust Account Application"),
   (S "Add_RemoveAdvisor_Brokerage_Jan2026.pdf", S "Add / Remove Advisor – Brokerage"),
   (S "JournalRequest_May2021_rev.pdf", S "Journal / Internal Transfer Request")]

/-- The non-empty `(label, value)` pairs of a field map
(`display = [(k, str(v)) for k, v in fields.items() if v]`). -/
def display (fields : Rec) : List (Str × Str) := fields.filter (fun kv => !kv.2.isEmpty)

/-- Pagination loop of `_generate_simple_pdf`: rows start at `y = 88`, each row is
30 tall, a new page begins when the next row would cross `792 - 36`. -/
def pagesGo : List (Str × Str) → List (Str × Str) → Nat → List (List (Str × Str))
  | [], cur, _ => [cur]
  | r :: rest, cur, y =>
      if y + 30 > 792 - 36 then cur :: pagesGo rest [r] (88 + 30)
      else pagesGo rest (cur ++ [r]) (y + 30)

/-- pdf_filler.py `_generate_simple_pdf`: the fallback data-sheet document.
Row-level text decoration (humanised labels, truncation, striping) is
presentational and not part of the page structure modelled here. -/
def generateSimplePdf (filename : Str) (fields : Rec) : List SimplePage :=
  let title := agetD formTitles filename
    (replaceAll (S "_") (S " ") (replaceAll (S ".pdf") [] filename))
  (pagesGo (display fields) [] 88).map (fun rs => { title := title, rows := rs })

/-- Widget update of fill mode: write the mapped value when the field name is in
the map with a non-empty value, else leave the widget untouched. -/
def fillWidget (fields : Rec) (w : Widget) : Widget :=
  if keyMem fields w.name && !(agetD fields w.name []).isEmpty then
    { w with value := agetD fields w.name [] }
  else w

/-- Fill-mode body of `_fill`: update every widget of every page. -/
def fillDoc (fields : Rec) (doc : List (List Widget)) : List (List Widget) :=
  doc.map (fun pg => pg.map (fillWidget fields))

/-- pdf_filler.py `_fill`: fill the template when present, else fall back to the
generated data sheet. -/
def fillFn (tpl : Templates) (filename : Str) (fields : Rec) : RenderedDoc :=
  match tpl filename with
  | none => .fallback (generateSimplePdf filename fields)
  | some doc => .filled (fillDoc fields doc)

/-! ### Individual form fillers and the dispatcher (pdf_filler.py) -/

/-- Python `a or b` on strings. -/
def orS (a b : Str) : Str := if a.isEmpty then b else a

/-- Python `dict.update` with a literal: assign the listed pairs in order. -/
def updMany (m : Rec) (kvs : List (Str × Str)) : Rec :=
  kvs.foldl (fun m kv => aset m kv.1 kv.2) m

/-- pdf_filler.py `fill_personal_app`. -/
def fillPersonalApp (tpl : Templates) (today : Str) (client : Rec) (co : Option Rec) : RenderedDoc :=
  let name := agetD client (S "Full Name") []
  let fml := splitName name
  let addr := agetD client (S "Address") []
  let adr := parseAddress addr
  let street := adr.1
  let city := adr.2.1
  let state := adr.2.2.1
  let zipc := adr.2.2.2.1
  let country := adr.2.2.2.2
  let fields : Rec :=
    [(S "PI_FirstName", fml.1),
     (S "PI_MI", fml.2.1),
     (S "PI_LastName", fml.2.2),
     (S "PI_DOB", agetD client (S "Date of Birth") []),
     (S "PI_SSN", agetD client (S "SSN") (agetD client (S "Social Security Number") [])),
     (S "PI_PrimaryMobilePhone", agetD client (S "Phone") (agetD client (S "Mobile Phone") [])),
     (S "PI_Email", agetD client (S "Email") []),
     (S "PI_PermAddress", street),
     (S "PI_PermAddressCity", city),
     (S "PI_PermAddressState", state),
     (S "PI_PermAddressZip", zipc),
     (S "PI_PermAddressCountry", country),
     (S "PI_MailingAddress", street),
     (S "PI_MailingAddressCity", city),
     (S "PI_MailingAddressState", state),
     (S "PI_MailingAddressZip", zipc),
     (S "PI_MailingAddressCountry", country),
     (S "PI_EIAEmployerName", agetD client (S "Employer") (agetD client (S "Employer Name") [])),
     (S "AS_Date03", today)]
  let coName0 := match co with | some c => agetD c (S "Full Name") [] | none => []
  let coDob0 := match co with | some c => agetD c (S "Date of Birth") [] | none => []
  let coPair :=
    if coName0.isEmpty then
      (agetD client (S "Co-Account Holder Name") [], agetD client (S "Co-Account Holder DOB") [])
    else (coName0, coDob0)
  let fields2 :=
    if !coPair.1.isEmpty then
      let fml2 := splitName coPair.1
      let coAddr := match co with | some c => agetD c (S "Address") addr | none => addr
      let adr2 := parseAddress coAddr
      let coPhone := match co with
        | some c => agetD c (S "Phone") (agetD c (S "Mobile Phone") []) | none => []
      let coEmail := match co with | some c => agetD c (S "Email") [] | none => []
      let coSsn := match co with
        | some c => agetD c (S "SSN") (agetD c (S "Social Security Number") []) | none => []
      updMany fields
        [(S "PI_FirstName02", fml2.1),
         (S "PI_MI02", fml2.2.1),
         (S "PI_LastName02", fml2.2.2),
         (S "PI_DOB02", coPair.2),
         (S "PI_SSN02", coSsn),
         (S "PI_PrimaryMobilePhone02", coPhone),
         (S "PI_Email02", coEmail),
         (S "PI_PermAddress02", orS adr2.1 street),
         (S "PI_PermAddressCity02", orS adr2.2.1 city),
         (S "PI_PermAddressState02", orS adr2.2.2.1 state),
         (S "PI_PermAddressZip02", orS adr2.2.2.2.1 zipc),
         (S "PI_PermAddressCountry02", S "USA"),
         (S "PI_MailingAddress02", orS adr2.1 street),
         (S "PI_MailingAddressCity02", orS adr2.2.1 city),
         (S "PI_MailingAddressState02", orS adr2.2.2.1 state),
         (S "PI_MailingAddressZip02", orS adr2.2.2.2.1 zipc),
         (S "PI_MailingAddressCountry02", S "USA"),
         (S "AS_Date04", today)]
    else fields
  fillFn tpl (S "IWSPersonalApp_Dec2024.pdf") fields2

/-- pdf_filler.py `fill_trust_app`. -/
def fillTrustApp (tpl : Templates) (today : Str) (client : Rec) (trustee2 : Option Rec) : RenderedDoc :=
  let trustName := agetD client (S "Trust Name")
    (agetD client (S "Entity Name") (agetD client (S "Full Name") []))
  let trustTin := agetD client (S "Tax ID") (agetD client (S "EIN") (agetD client (S "SSN") []))
  let trustDate := agetD client (S "Trust Date") (agetD client (S "Date of Trust") [])
  let trustState := agetD client (S "State") []
  let name := agetD client (S "Full Name") []
  let fml := splitName name
  let addr := agetD client (S "Address") []
  let adr := parseAddress addr
  let street := adr.1
  let city := adr.2.1
  let state := adr.2.2.1
  let zipc := adr.2.2.2.1
  let country := adr.2.2.2.2
  let fields : Rec :=
    [(S "ASU_NameofTrust", trustName),
     (S "ASU_SSTIN", trustTin),
     (S "ASU_DateOfTrust", trustDate),
     (S "ASU_StateWhereOrganized", orS trustState state),
     (S "ASU_PermanentAddress", street),
     (S "ASU_PermanentAddressCity", city),
     (S "ASU_PermanentAddressState", state),
     (S "ASU_PermanentAddressZip", zipc),
     (S "ASU_PermanentAddressCountry", country),
     (S "PI_FirstName", fml.1),
     (S "PI_MI", fml.2.1),
     (S "PI_LastName", fml.2.2),
     (S "PI_DOB", agetD client (S "Date of Birth") []),
     (S "PI_SSN", agetD client (S "SSN") []),
     (S "PI_Email", agetD client (S "Email") []),
     (S "PI_PrimaryMobilePhone", agetD client (S "Phone") []),
     (S "PI_PermAddress", street),
     (S "PI_PermAddressCity", city),
     (S "PI_PermAddressState", state),
     (S "PI_PermAddressZip", zipc),
     (S "PI_PermAddressCountry", country),
     (S "CT_Date01", today)]
  let fields2 :=
    match trustee2 with
    | some t2 =>
        let fml2 := splitName (agetD t2 (S "Full Name") [])
        let adr2 := parseAddress (agetD t2 (S "Address") addr)
        updMany fields
          [(S "PI_FirstName02", fml2.1),
           (S "PI_MI02", fml2.2.1),
           (S "PI_LastName02", fml2.2.2),
           (S "PI_DOB02", agetD t2 (S "Date of Birth") []),
           (S "PI_SSN02", agetD t2 (S "SSN") []),
           (S "PI_Email02", agetD t2 (S "Email") []),
           (S "PI_PrimaryMobilePhone02", agetD t2 (S "Phone") []),
           (S "PI_PermAddress02", orS adr2.1 street),
           (S "PI_PermAddressCity02", orS adr2.2.1 city),
           (S "PI_PermAddressState02", orS adr2.2.2.1 state),
           (S "PI_PermAddressZip02", orS adr2.2.2.2.1 zipc),
           (S "PI_PermAddressCountry02", S "USA"),
           (S "CT_Date02", today)]
    | none => fields
  fillFn tpl (S "IWSTrustApp_Dec2024.pdf") fields2

/-- `str(i).zfill(2)`. -/
def z2 (i : Nat) : Str := if i < 10 then S "0" ++ natStr i else natStr i

/-- pdf_filler.py `fill_add_remove_advisor`. -/
def fillAddRemoveAdvisor (tpl : Templates) (today : Str) (client : Rec)
    (advisorName advisorGnumber dtcNumber pricingCode : Str)
    (accountNumbers : Option (List Str)) : RenderedDoc :=
  let name := agetD client (S "Full Name") []
  let fml := splitName name
  let accts := accountNumbers.getD []
  let fields : Rec :=
    [(S "AI_First", fml.1),
     (S "AI_MI", fml.2.1),
     (S "AI_Last", fml.2.2),
     (S "DA_AdvisorName", advisorName),
     (S "DA_GNumber", advisorGnumber),
     (S "DA_DTCNumber", dtcNumber),
     (S "DA_PricingCode", pricingCode),
     (S "SD_PrintAccountOwner", name),
     (S "SD_Date", today)]
  let acctKeys := S "AI_Account" :: (List.range' 1 14).map (fun i => S "AI_Account" ++ z2 i)
  fillFn tpl (S "Add_RemoveAdvisor_Brokerage_Jan2026.pdf") (updMany fields (acctKeys.zip accts))

/-- pdf_filler.py `fill_journal_request`. -/
def fillJournalRequest (tpl : Templates) (today : Str) (client : Rec)
    (receivingAccount receivingOwner firm gnumber : Str) : RenderedDoc :=
  let name := agetD client (S "Full Name") []
  let fml := splitName name
  let fields : Rec :=
    [(S "AO_First", fml.1),
     (S "AO_MI", fml.2.1),
     (S "AO_Last", fml.2.2),
     (S "AO_SocialSecurityNumber",
       agetD client (S "SSN") (agetD client (S "Social Security Number") [])),
     (S "JR_FirmName", firm),
     (S "JR_GNumber", gnumber),
     (S "RAI_OwnerName", orS receivingOwner name),
     (S "RAI_Account", receivingAccount),
     (S "SaD_PrintAccountOwnerName", name),
     (S "SD_Date", today)]
  fillFn tpl (S "JournalRequest_May2021_rev.pdf") fields

/-- pdf_filler.py `fill_form`: dispatch on the catalog key, `ValueError` otherwise. -/
def fillForm (tpl : Templates) (today : Str) (formKey : Str) (client : Rec) (co : Option Rec)
    (advisorName advisorGnumber dtcNumber pricingCode : Str)
    (accountNumbers : Option (List Str))
    (receivingAccount receivingOwner firm gnumber : Str) : Except Str RenderedDoc :=
  if formKey = S "IWSPersonalApp" then .ok (fillPersonalApp tpl today client co)
  else if formKey = S "IWSTrustApp" then .ok (fillTrustApp tpl today client co)
  else if formKey = S "AddRemoveAdvisor" then
    .ok (fillAddRemoveAdvisor tpl today client advisorName advisorGnumber dtcNumber pricingCode accountNumbers)
  else if formKey = S "JournalRequest" then
    .ok (fillJournalRequest tpl today client receivingAccount receivingOwner firm gnumber)
  else .error (S "Unknown form key: " ++ formKey)

/-! ### Form catalog (app.py `FORM_CATALOG`): key, label, template file -/

/-- app.py `FORM_CATALOG`, restricted to the key, label and template filename. -/
def formCatalog : List (Str × Str × Str) :=
  [(S "IWSPersonalApp", S "IWS Personal / Joint Account Application", S "IWSPersonalApp_Dec2024.pdf"),
   (S "IWSTrustApp", S "IWS Trust Account Application", S "IWSTrustApp_Dec2024.pdf"),
   (S "AddRemoveAdvisor", S "Add / Remove Advisor – Brokerage", S "Add_RemoveAdvisor_Brokerage_Jan2026.pdf"),
   (S "JournalRequest", S "Journal / Internal Transfer Request", S "JournalRequest_May2021_rev.pdf")]

/-- The catalog label of a document type key. -/
def catalogLabel (k : Str) : Str :=
  ((formCatalog.find? (fun e => e.1 = k)).map (fun e => e.2.1)).getD []

/-- The catalog template filename of a document type key. -/
def catalogFile (k : Str) : Str :=
  ((formCatalog.find? (fun e => e.1 = k)).map (fun e => e.2.2)).getD []

/-! ### Specification-side predicates used by the theorems -/

/-- Default widget used for position-based lookups in statements. -/
def wDef : Widget := { name := [], value := [] }

/-- The `Investment Goal` canonical key. -/
def IGK : Str := S "Investment Goal"

/-- The `Risk Tolerance` canonical key. -/
def RTK : Str := S "Risk Tolerance"

/-- A binding `(k, v)` is self-stable for the normalizer: re-processing it writes
back exactly itself.  The three conjuncts cover the generic append case, the
in-place `Risk Tolerance` overwrite, and the `Investment Goal` double-default. -/
def SelfStep (k v : Str) : Prop :=
  (k ≠ IGK → ∀ acc : Rec, keyMem acc k = false → step acc (k, v) = acc ++ [(k, v)])
  ∧ (k = RTK → ∀ acc : Rec, step acc (k, v) = aset acc RTK v)
  ∧ (k = IGK → ∀ acc : Rec, step acc (k, v) = asetd (asetd acc IGK v) RTK v)

/-- Placement invariant of normalizer outputs: wherever `Investment Goal`
occurs, `Risk Tolerance` occurs before it or immediately after it. -/
def PlaceOK (ks : List Str) : Prop :=
  ∀ l₁ l₂, ks = l₁ ++ IGK :: l₂ → RTK ∈ l₁ ∨ l₂.head? = some RTK

/-- Characterization of records produced by `_normalize_fields`. -/
def Canon (m : Rec) : Prop :=
  (keys m).Nodup ∧ (∀ p ∈ m, SelfStep p.1 p.2) ∧ PlaceOK (keys m)

/-- At most one registry entry per case-insensitive client name. -/
def uniqueNames (records : List RegEntry) : Prop :=
  (records.map (fun r => lower r.name)).Nodup

/-! ## Association-list lemmas -/

theorem aset_absent {m : Rec} {k : Str} (h : keyMem m k = false) (v : Str) :
    aset m k v = m ++ [(k, v)] := by
  induction m with
  | nil => rfl
  | cons p t ih =>
      obtain ⟨k1, v1⟩ := p
      by_cases hk : k1 = k
      · simp [keyMem, aget?, hk] at h
      · simp only [aset, if_neg hk, List.cons_append, List.cons.injEq, true_and]
        exact ih (by simpa [keyMem, aget?, hk] using h)

theorem aget?_aset_self (m : Rec) (k v : Str) : aget? (aset m k v) k = some v := by
  induction m with
  | nil => simp [aset, aget?]
  | cons p t ih =>
      obtain ⟨k1, v1⟩ := p
      by_cases hk : k1 = k
      · simp [aset, aget?, hk]
      · simp [aset, aget?, hk, ih]

theorem aget?_aset_ne (m : Rec) {k' k : Str} (h : k' ≠ k) (v : Str) :
    aget? (aset m k' v) k = aget? m k := by
  induction m with
  | nil => simp [aset, aget?, h]
  | cons p t ih =>
      obtain ⟨k1, v1⟩ := p
      have h2 : ¬ (k = k') := fun he => h (Eq.symm he)
      by_cases hk : k1 = k'
      · simp [aset, aget?, hk, h, h2]
      · by_cases hk2 : k1 = k <;> simp [aset, aget?, hk, hk2, ih, h, h2]

theorem keyMem_false_iff {m : Rec} {k : Str} : keyMem m k = false ↔ k ∉ keys m := by
  induction m with
  | nil => simp [keyMem, aget?, keys]
  | cons p t ih =>
      obtain ⟨k1, v1⟩ := p
      by_cases hk : k1 = k
      · simp [keyMem, aget?, keys, hk]
      · simpa [keyMem, aget?, keys, hk, Ne.symm hk] using ih

theorem keys_aset (m : Rec) (k v : Str) :
    keys (aset m k v) = if keyMem m k then keys m else keys m ++ [k] := by
  induction m with
  | nil => simp [aset, keys, keyMem, aget?]
  | cons p t ih =>
      obtain ⟨k1, v1⟩ := p
      by_cases hk : k1 = k
      · simp [aset, keys, keyMem, aget?, hk]
      · simp only [aset, if_neg hk, keys, List.map_cons, keyMem, aget?, hk, if_false]
        simp only [keys] at ih
        rw [ih]
        by_cases hm : keyMem t k <;> simp [keyMem, aget?] at hm ⊢ <;> simp [hm]

theorem mem_aset {m : Rec} {k v : Str} {p : Str × Str} (h : p ∈ aset m k v) :
    p ∈ m ∨ p = (k, v) := by
  induction m with
  | nil => exact Or.inr (by simpa [aset] using h)
  | cons q t ih =>
      obtain ⟨k1, v1⟩ := q
      by_cases hk : k1 = k
      · simp only [aset, if_pos hk] at h
        rcases List.mem_cons.mp h with h | h
        · right; rw [h, hk]
        · left; exact List.mem_cons_of_mem _ h
      · simp only [aset, if_neg hk] at h
        rcases List.mem_cons.mp h with h | h
        · left; rw [h]; exact List.mem_cons_self _ _
        · rcases ih h with h2 | h2
          · left; exact List.mem_cons_of_mem _ h2
          · right; exact h2

theorem keyMem_append (m1 m2 : Rec) (k : Str) :
    keyMem (m1 ++ m2) k = (keyMem m1 k || keyMem m2 k) := by
  induction m1 with
  | nil => simp [keyMem, aget?]
  | cons p t ih =>
      obtain ⟨k1, v1⟩ := p
      by_cases hk : k1 = k
      · simp [keyMem, aget?, hk]
      · simp [keyMem, aget?, hk] at ih ⊢
        simp [ih]

theorem aset_inplace {l1 : Rec} {k : Str} (h : keyMem l1 k = false) (v w : Str) (l2 : Rec) :
    aset (l1 ++ (k, v) :: l2) k w = l1 ++ (k, w) :: l2 := by
  induction l1 with
  | nil => simp [aset]
  | cons p t ih =>
      obtain ⟨k1, v1⟩ := p
      by_cases hk : k1 = k
      · simp [keyMem, aget?, hk] at h
      · simp only [List.cons_append, aset, if_neg hk, List.cons.injEq, true_and]
        exact ih (by simpa [keyMem, aget?, hk] using h)

theorem asetd_present {m : Rec} {k : Str} (h : keyMem m k = true) (v : Str) :
    asetd m k v = m := by
  simp [asetd, h]

theorem asetd_absent {m : Rec} {k : Str} (h : keyMem m k = false) (v : Str) :
    asetd m k v = m ++ [(k, v)] := by
  simp [asetd, h]

theorem keys_append (m1 m2 : Rec) : keys (m1 ++ m2) = keys m1 ++ keys m2 := by
  simp [keys]

/-! ## String lemmas: `trim`, `tokens`, `parseDate` -/

theorem dropWhile_dropWhile (p : Char → Bool) (l : Str) :
    (l.dropWhile p).dropWhile p = l.dropWhile p := by
  induction l with
  | nil => rfl
  | cons c t ih =>
      by_cases hc : p c
      · simpa [List.dropWhile, hc] using ih
      · simp [List.dropWhile, hc]

theorem head?_dropWhile_false {p : Char → Bool} {l : Str} {c : Char}
    (h : (l.dropWhile p).head? = some c) : p c = false := by
  induction l with
  | nil => simp [List.dropWhile] at h
  | cons a t ih =>
      by_cases ha : p a
      · exact ih (by simpa [List.dropWhile, ha] using h)
      · simp only [List.dropWhile, ha, Bool.false_eq_true, if_false, List.head?_cons,
          Option.some.injEq] at h
        rw [← h]
        simpa using ha

theorem getLast?_dropWhile {p : Char → Bool} {l : Str} (h : l.dropWhile p ≠ []) :
    (l.dropWhile p).getLast? = l.getLast? := by
  induction l with
  | nil => simp [List.dropWhile] at h
  | cons c t ih =>
      by_cases hc : p c = true
      · have ht : t.dropWhile p ≠ [] := by
          rw [List.dropWhile_cons, if_pos hc] at h
          exact h
        have ht2 : t ≠ [] := by
          intro he
          rw [he] at ht
          simp [List.dropWhile] at ht
        obtain ⟨x, xs, rfl⟩ := List.exists_cons_of_ne_nil ht2
        rw [List.dropWhile_cons, if_pos hc, ih ht, List.getLast?_cons_cons]
      · rw [List.dropWhile_cons, if_neg hc]

theorem dropWhile_eq_self_of_head {p : Char → Bool} {l : Str}
    (h : ∀ c, l.head? = some c → p c = false) : l.dropWhile p = l := by
  cases l with
  | nil => rfl
  | cons c t => simp [List.dropWhile, h c rfl]

theorem dropWhile_eq_self_of_all {p : Char → Bool} {l : Str}
    (h : ∀ c ∈ l, p c = false) : l.dropWhile p = l := by
  cases l with
  | nil => rfl
  | cons c t => simp [List.dropWhile, h c (List.mem_cons_self _ _)]

theorem trim_nil : trim [] = [] := rfl

theorem trim_of_noWs {s : Str} (h : ∀ c ∈ s, isWs c = false) : trim s = s := by
  unfold trim
  rw [dropWhile_eq_self_of_all h,
    dropWhile_eq_self_of_all (fun c hc => h c (List.mem_reverse.mp hc)), List.reverse_reverse]

theorem trim_idem (s : Str) : trim (trim s) = trim s := by
  by_cases hw : (s.dropWhile isWs).reverse.dropWhile isWs = []
  · have hnil : trim s = [] := by unfold trim; rw [hw]; rfl
    rw [hnil]
    rfl
  · have h1 : (trim s).dropWhile isWs = trim s := by
      apply dropWhile_eq_self_of_head
      intro c hc
      unfold trim at hc
      rw [List.head?_reverse, getLast?_dropWhile hw, List.getLast?_reverse] at hc
      exact head?_dropWhile_false hc
    have h2 : (trim s).reverse = (s.dropWhile isWs).reverse.dropWhile isWs := by
      unfold trim
      rw [List.reverse_reverse]
    show (((trim s).dropWhile isWs).reverse.dropWhile isWs).reverse = trim s
    rw [h1, h2, dropWhile_dropWhile, ← h2, List.reverse_reverse]

theorem tokensAux_noWs {t : Str} : ∀ {s acc : Str}, (∀ c ∈ acc, isWs c = false) →
    t ∈ tokensAux s acc → ∀ c ∈ t, isWs c = false := by
  intro s
  induction s with
  | nil =>
      intro acc hacc ht
      by_cases ha : acc = [] <;> simp only [tokensAux, ha, if_true, if_false] at ht
      · simp at ht
      · simp only [List.mem_singleton] at ht
        subst ht
        intro c hc
        exact hacc c (List.mem_reverse.mp hc)
  | cons a s ih =>
      intro acc hacc ht
      by_cases hws : isWs a
      · simp only [tokensAux, hws, if_true] at ht
        by_cases ha : acc = []
        · simp only [ha, if_pos rfl] at ht
          exact ih (by simp) ht
        · simp only [if_neg ha, List.mem_cons] at ht
          rcases ht with ht | ht
          · subst ht
            intro c hc
            exact hacc c (List.mem_reverse.mp hc)
          · exact ih (by simp) ht
      · simp only [tokensAux, hws, Bool.false_eq_true, if_false] at ht
        refine ih ?_ ht
        intro c hc
        rcases List.mem_cons.mp hc with rfl | hc
        · simpa using hws
        · exact hacc c hc

theorem tokens_noWs {t s : Str} (ht : t ∈ tokens s) : ∀ c ∈ t, isWs c = false :=
  tokensAux_noWs (by simp) ht

theorem tokens_trim_stable {t s : Str} (ht : t ∈ tokens s) : trim t = t :=
  trim_of_noWs (tokens_noWs ht)

theorem tokensAux_all_noWs {s : Str} (h : ∀ c ∈ s, isWs c = false) (hne : s ≠ []) :
    ∀ acc : Str, tokensAux s acc = [acc.reverse ++ s] := by
  induction s with
  | nil => exact absurd rfl hne
  | cons a s ih =>
      intro acc
      have ha : isWs a = false := h a (List.mem_cons_self _ _)
      by_cases hs : s = []
      · subst hs
        simp [tokensAux, ha]
      · have := ih (fun c hc => h c (List.mem_cons_of_mem _ hc)) hs (a :: acc)
        simp only [tokensAux, ha, Bool.false_eq_true, if_false]
        rw [this]
        simp

theorem tokens_single_of_noWs {s : Str} (h : ∀ c ∈ s, isWs c = false) (hne : s ≠ []) :
    tokens s = [s] := by
  unfold tokens
  rw [tokensAux_all_noWs h hne []]
  rfl

theorem parseDate_trim (v : Str) : trim (parseDate v) = parseDate v := by
  unfold parseDate
  by_cases hc : (trim v).contains ' '
  · simp only [hc, if_true]
    cases htk : tokens (trim v) with
    | nil => simp [trim_nil]
    | cons t ts =>
        simp only [List.headD_cons]
        exact tokens_trim_stable (htk ▸ List.mem_cons_self _ _)
  · simp only [hc, Bool.false_eq_true, if_false]
    exact trim_idem v

theorem noWs_contains_space {t : Str} (h : ∀ c ∈ t, isWs c = false) :
    t.contains ' ' = false := by
  induction t with
  | nil => rfl
  | cons c cs ih =>
      have h1 : ¬ (' ' = c) := by
        intro he
        have := h c (List.mem_cons_self _ _)
        rw [← he] at this
        simp [isWs] at this
      rw [List.contains_cons, Bool.or_eq_false_iff]
      exact ⟨beq_eq_false_iff_ne.mpr h1, ih (fun x hx => h x (List.mem_cons_of_mem _ hx))⟩

theorem parseDate_noSpace (v : Str) : (parseDate v).contains ' ' = false := by
  unfold parseDate
  by_cases hc : (trim v).contains ' ' = true
  · rw [if_pos hc]
    cases htk : tokens (trim v) with
    | nil => rfl
    | cons t ts =>
        simp only [List.headD_cons]
        exact noWs_contains_space (tokens_noWs (htk ▸ List.mem_cons_self t ts))
  · rw [if_neg hc]
    simpa using hc

theorem parseDate_idem (v : Str) : parseDate (parseDate v) = parseDate v := by
  conv_lhs => rw [parseDate]
  rw [parseDate_trim, parseDate_noSpace]
  rfl

/-! ## Unfolding lemmas for the normalizer rules -/

theorem step_simple (acc : Rec) (key val : Str) (r : Rule)
    (hcl : classify (lower (trim key)) = r) (hs : isSimple r = true) :
    step acc (key, val) = aset acc (simpleTarget r) (trim val) := by
  cases r <;> simp_all [step, isSimple]

theorem step_nameSplit (acc : Rec) (key val : Str)
    (hcl : classify (lower (trim key)) = .nameSplit) :
    step acc (key, val) =
      (match tokens (trim val) with
       | a :: b :: rest =>
           let out1 := aset acc (S "First Name") a
           let out2 := aset out1 (S "Last Name") ((b :: rest).getLastD b)
           if rest.length = 1 then aset out2 (S "Middle Initial") b else out2
       | _ => aset acc (S "First Name") (trim val)) := by
  simp only [step, hcl]

theorem step_dob (acc : Rec) (key val : Str)
    (hcl : classify (lower (trim key)) = .dob) :
    step acc (key, val) = aset acc (S "Date of Birth") (parseDate (trim val)) := by
  simp only [step, hcl]

theorem step_objective (acc : Rec) (key val : Str)
    (hcl : classify (lower (trim key)) = .objective) :
    step acc (key, val) = asetd (asetd acc IGK (trim val)) RTK (trim val) := by
  simp only [step, hcl]
  rfl

theorem step_advisor (acc : Rec) (key val : Str)
    (hcl : classify (lower (trim key)) = .advisor) :
    step acc (key, val) = asetd acc (S "Referral Source") (trim val) := by
  simp only [step, hcl]

theorem step_notes (acc : Rec) (key val : Str)
    (hcl : classify (lower (trim key)) = .notes) :
    step acc (key, val) =
      (let existing := agetD acc (S "Notes") []
       aset acc (S "Notes")
         (if existing ≠ [] then trim (existing ++ S "  " ++ trim val) else trim val)) := by
  simp only [step, hcl]

theorem step_passthrough (acc : Rec) (key val : Str)
    (hcl : classify (lower (trim key)) = .passthrough) :
    step acc (key, val) = aset acc (trim key) (trim val) := by
  simp only [step, hcl]

/-! ## C4 — wide-layout carry-forward -/

/-- C4: in the wide layout, for a data row with label `label` and a party
`i > 0`, party 0's value is copied into party `i`'s map exactly when the cell is
blank/`nan`/`none`, the label is not yet present for party `i`, and the label is
present for party 0; a kept cell value is written directly, and an already
present binding for party `i` is never replaced by carry-forward. -/
theorem c4_carry_forward (label : Str) (i : Nat) (root m : Rec) (c : Str) (hi : 0 < i) :
    (cellKeep (trim c) = true → updCell label i root m c = aset m label (trim c))
  ∧ (cellKeep (trim c) = false → keyMem m label = true → updCell label i root m c = m)
  ∧ (cellKeep (trim c) = false → keyMem m label = false → keyMem root label = true →
      updCell label i root m c = aset m label (agetD root label []))
  ∧ (cellKeep (trim c) = false → keyMem root label = false → updCell label i root m c = m) := by
  refine ⟨?_, ?_, ?_, ?_⟩
  · intro h1
    simp [updCell, h1]
  · intro h1 h2
    simp [updCell, h1, h2]
  · intro h1 h2 h3
    simp [updCell, h1, h2, h3, hi]
  · intro h1 h2
    simp [updCell, h1, h2]

/-- Witness for C4 at a concrete blank cell with the label present for party 0
and absent for party 1. -/
theorem c4_witness :
    updCell (S "Address") 1 [(S "Address", S "1 Main St")] [] (S " ")
      = aset ([] : Rec) (S "Address") (agetD [(S "Address", S "1 Main St")] (S "Address") []) :=
  (c4_carry_forward (S "Address") 1 [(S "Address", S "1 Main St")] [] (S " ")
    (by decide)).2.2.1 (by decide) (by decide) (by decide)

/-! ## C7 — household composition from three parsed parties -/

/-- C7: with exactly three parsed party records, the composed household is party
0's record with party 1's full name and date of birth attached under the
co-holder keys and party 2 recorded as `Child 1`; every other key of the
composed record reads exactly as in party 0's record. -/
theorem c7_household_composition (r0 r1 r2 : Rec) :
    (composeParsed [r0, r1, r2]).isSome = true
  ∧ aget? ((composeParsed [r0, r1, r2]).getD []) (S "Co-Account Holder Name")
      = some (fullName r1)
  ∧ aget? ((composeParsed [r0, r1, r2]).getD []) (S "Co-Account Holder DOB")
      = some (agetD r1 (S "Date of Birth") [])
  ∧ aget? ((composeParsed [r0, r1, r2]).getD []) (S "Child 1 Name") = some (fullName r2)
  ∧ aget? ((composeParsed [r0, r1, r2]).getD []) (S "Child 1 DOB")
      = some (agetD r2 (S "Date of Birth") [])
  ∧ ∀ k, k ∉ [S "Co-Account Holder Name", S "Co-Account Holder DOB",
        S "Child 1 Name", S "Child 1 DOB"] →
      aget? ((composeParsed [r0, r1, r2]).getD []) k = aget? r0 k := by
  have hk1 : S "Child " ++ natStr 1 ++ S " Name" = S "Child 1 Name" := by decide
  have hk2 : S "Child " ++ natStr 1 ++ S " DOB" = S "Child 1 DOB" := by decide
  have hred : composeParsed [r0, r1, r2] =
      some (aset (aset (aset (aset r0 (S "Co-Account Holder Name") (fullName r1))
        (S "Co-Account Holder DOB") (agetD r1 (S "Date of Birth") []))
        (S "Child 1 Name") (fullName r2)) (S "Child 1 DOB") (agetD r2 (S "Date of Birth") [])) := by
    simp only [composeParsed, addChildren, hk1, hk2]
  rw [hred]
  refine ⟨rfl, ?_, ?_, ?_, ?_, ?_⟩
  · rw [Option.getD_some, aget?_aset_ne _ (by decide), aget?_aset_ne _ (by decide),
      aget?_aset_ne _ (by decide), aget?_aset_self]
  · rw [Option.getD_some, aget?_aset_ne _ (by decide), aget?_aset_ne _ (by decide),
      aget?_aset_self]
  · rw [Option.getD_some, aget?_aset_ne _ (by decide), aget?_aset_self]
  · rw [Option.getD_some, aget?_aset_self]
  · intro k hk
    simp only [List.mem_cons, List.not_mem_nil, or_false, not_or] at hk
    obtain ⟨h1, h2, h3, h4⟩ := hk
    rw [Option.getD_some, aget?_aset_ne _ (fun he => h4 he.symm),
      aget?_aset_ne _ (fun he => h3 he.symm), aget?_aset_ne _ (fun he => h2 he.symm),
      aget?_aset_ne _ (fun he => h1 he.symm)]

/-- Witness for C7 at concrete three-party records. -/
theorem c7_witness :
    aget? ((composeParsed [[(S "First Name", S "Ann")], [(S "First Name", S "Bob")],
        [(S "First Name", S "Cal")]]).getD []) (S "First Name")
      = aget? [(S "First Name", S "Ann")] (S "First Name") :=
  (c7_household_composition [(S "First Name", S "Ann")] [(S "First Name", S "Bob")]
    [(S "First Name", S "Cal")]).2.2.2.2.2 (S "First Name") (by decide)

/-- C9: when the registry satisfies the case-insensitive uniqueness invariant,
`_save_to_registry` preserves it, the saved name afterwards matches exactly one
entry (the new one), and `_registry_entry` resolves the name to that entry. -/
theorem c9_registry_uniqueness (records : List RegEntry) (name sfId ts : Str)
    (intake sfRecord : Rec) (h : uniqueNames records) :
    uniqueNames (saveToRegistry records name sfId ts intake sfRecord)
  ∧ registryEntry (saveToRegistry records name sfId ts intake sfRecord) name
      = some (mkRegEntry name sfId ts intake sfRecord)
  ∧ ((saveToRegistry records name sfId ts intake sfRecord).filter
        (fun r => lower r.name = lower name)).length = 1 := by
  refine ⟨?_, ?_, ?_⟩
  · unfold uniqueNames saveToRegistry
    rw [List.map_append, List.nodup_append]
    refine ⟨?_, by simp, ?_⟩
    · exact List.Nodup.sublist (List.Sublist.map _ (List.filter_sublist records)) h
    · intro x hx
      obtain ⟨r, hr, rfl⟩ := List.mem_map.mp hx
      have h2 := (List.mem_filter.mp hr).2
      simp only [ne_eq, decide_not, Bool.not_eq_true', decide_eq_false_iff_not] at h2
      simp only [List.map_cons, List.map_nil, List.mem_singleton]
      intro he
      exact h2 (by simpa [mkRegEntry] using he)
  · unfold registryEntry saveToRegistry
    rw [List.find?_append]
    have h1 : (records.filter (fun r => lower r.name ≠ lower name)).find?
        (fun r => lower r.name = lower name) = none := by
      rw [List.find?_eq_none]
      intro r hr
      have h2 := (List.mem_filter.mp hr).2
      simpa using h2
    rw [h1]
    simp [List.find?, mkRegEntry]
  · unfold saveToRegistry
    rw [List.filter_append, List.length_append]
    have h1 : (records.filter (fun r => lower r.name ≠ lower name)).filter
        (fun r => lower r.name = lower name) = [] := by
      rw [List.filter_eq_nil_iff]
      intro r hr
      have h2 := (List.mem_filter.mp hr).2
      simpa using h2
    rw [h1]
    simp [List.filter, mkRegEntry]

/-- Witness for C9: saving into an empty registry. -/
theorem c9_witness :
    uniqueNames (saveToRegistry [] (S "Ann Smith") (S "003X") (S "2026-10-12") [] [])
  ∧ registryEntry (saveToRegistry [] (S "Ann Smith") (S "003X") (S "2026-10-12") [] []) (S "Ann Smith")
      = some (mkRegEntry (S "Ann Smith") (S "003X") (S "2026-10-12") [] [])
  ∧ ((saveToRegistry [] (S "Ann Smith") (S "003X") (S "2026-10-12") [] []).filter
        (fun r => lower r.name = lower (S "Ann Smith"))).length = 1 :=
  c9_registry_uniqueness [] (S "Ann Smith") (S "003X") (S "2026-10-12") [] []
    (by constructor)

/-- C10: `fill_form` dispatches each of the four catalog keys to its filler and
returns a rendered document; every other key yields the `ValueError` message and
no document. -/
theorem c10_dispatch (tpl : Templates) (today : Str) (client : Rec) (co : Option Rec)
    (advisorName advisorGnumber dtcNumber pricingCode : Str)
    (accountNumbers : Option (List Str))
    (receivingAccount receivingOwner firm gnumber : Str) (formKey : Str) :
    (fillForm tpl today (S "IWSPersonalApp") client co advisorName advisorGnumber dtcNumber
        pricingCode accountNumbers receivingAccount receivingOwner firm gnumber
      = .ok (fillPersonalApp tpl today client co))
  ∧ (fillForm tpl today (S "IWSTrustApp") client co advisorName advisorGnumber dtcNumber
        pricingCode accountNumbers receivingAccount receivingOwner firm gnumber
      = .ok (fillTrustApp tpl today client co))
  ∧ (fillForm tpl today (S "AddRemoveAdvisor") client co advisorName advisorGnumber dtcNumber
        pricingCode accountNumbers receivingAccount receivingOwner firm gnumber
      = .ok (fillAddRemoveAdvisor tpl today client advisorName advisorGnumber dtcNumber
          pricingCode accountNumbers))
  ∧ (fillForm tpl today (S "JournalRequest") client co advisorName advisorGnumber dtcNumber
        pricingCode accountNumbers receivingAccount receivingOwner firm gnumber
      = .ok (fillJournalRequest tpl today client receivingAccount receivingOwner firm gnumber))
  ∧ (formKey ∉ [S "IWSPersonalApp", S "IWSTrustApp", S "AddRemoveAdvisor", S "JournalRequest"] →
      fillForm tpl today formKey client co advisorName advisorGnumber dtcNumber
        pricingCode accountNumbers receivingAccount receivingOwner firm gnumber
      = .error (S "Unknown form key: " ++ formKey)) := by
  refine ⟨?_, ?_, ?_, ?_, ?_⟩
  · rw [fillForm, if_pos rfl]
  · rw [fillForm, if_neg (by decide), if_pos rfl]
  · rw [fillForm, if_neg (by decide), if_neg (by decide), if_pos rfl]
  · rw [fillForm, if_neg (by decide), if_neg (by decide), if_neg (by decide), if_pos rfl]
  · intro hk
    simp only [List.mem_cons, List.not_mem_nil, or_false, not_or] at hk
    obtain ⟨h1, h2, h3, h4⟩ := hk
    rw [fillForm, if_neg h1, if_neg h2, if_neg h3, if_neg h4]

/-- Witness for C10 at an unknown form key. -/
theorem c10_witness :
    fillForm (fun _ => none) (S "10/12/2026") (S "W-9") [] none [] [] [] [] none [] [] [] []
      = .error (S "Unknown form key: " ++ S "W-9") :=
  (c10_dispatch (fun _ => none) (S "10/12/2026") [] none [] [] [] [] none [] [] [] []
    (S "W-9")).2.2.2.2 (by decide)

/-! ## C8 — fill mode writes exactly the mapped non-empty values -/

/-- C8: in fill mode every widget whose name is in the map with a non-empty
value receives that value, every other widget is untouched, and the page/widget
structure of the document is preserved unchanged. -/
theorem c8_fill_mode (fields : Rec) (doc : List (List Widget)) :
    (fillDoc fields doc).length = doc.length
  ∧ (∀ i, ((fillDoc fields doc).getD i []).length = (doc.getD i []).length)
  ∧ (∀ i j, i < doc.length → j < (doc.getD i []).length →
      ((fillDoc fields doc).getD i []).getD j wDef
        = fillWidget fields ((doc.getD i []).getD j wDef))
  ∧ (∀ w : Widget, (fillWidget fields w).name = w.name
      ∧ (keyMem fields w.name = true → agetD fields w.name [] ≠ [] →
          (fillWidget fields w).value = agetD fields w.name [])
      ∧ (keyMem fields w.name = true → agetD fields w.name [] = [] →
          fillWidget fields w = w)
      ∧ (keyMem fields w.name = false → fillWidget fields w = w)) := by
  refine ⟨by simp [fillDoc], ?_, ?_, ?_⟩
  · intro i
    unfold fillDoc
    rw [List.getD_eq_getElem?_getD, List.getD_eq_getElem?_getD, List.getElem?_map]
    cases doc[i]? with
    | none => rfl
    | some pg => simp
  · intro i j hi hj
    unfold fillDoc
    rw [List.getD_eq_getElem?_getD, List.getD_eq_getElem?_getD, List.getElem?_map]
    cases hpg : doc[i]? with
    | none =>
        exfalso
        have := List.getElem?_eq_none_iff.mp hpg
        omega
    | some pg =>
        rw [List.getD_eq_getElem?_getD, hpg, Option.getD_some] at hj
        simp only [Option.map_some', Option.getD_some]
        rw [List.getD_eq_getElem?_getD, List.getD_eq_getElem?_getD, List.getElem?_map]
        cases hw : pg[j]? with
        | none =>
            exfalso
            have := List.getElem?_eq_none_iff.mp hw
            omega
        | some w =>
            rw [hpg, Option.getD_some, hw, Option.getD_some]
            rfl
  · intro w
    refine ⟨?_, ?_, ?_, ?_⟩
    · unfold fillWidget
      split <;> rfl
    · intro h1 h2
      unfold fillWidget
      rw [if_pos (by simp [h1, h2, List.isEmpty_iff])]
    · intro h1 h2
      unfold fillWidget
      rw [if_neg (by simp [h2, List.isEmpty_iff])]
    · intro h1
      unfold fillWidget
      rw [if_neg (by simp [h1])]

/-- Witness for C8 at a one-widget document. -/
theorem c8_witness :
    ((fillDoc [(S "PI_FirstName", S "Ann")]
        [[{ name := S "PI_FirstName", value := [] }]]).getD 0 []).getD 0 wDef
      = fillWidget [(S "PI_FirstName", S "Ann")]
          (([[{ name := S "PI_FirstName", value := [] }]].getD 0 []).getD 0 wDef)
  ∧ (fillWidget [(S "PI_FirstName", S "Ann")] { name := S "PI_FirstName", value := [] }).value
      = agetD [(S "PI_FirstName", S "Ann")] (S "PI_FirstName") [] :=
  ⟨(c8_fill_mode [(S "PI_FirstName", S "Ann")]
      [[{ name := S "PI_FirstName", value := [] }]]).2.2.1 0 0 (by decide) (by decide),
   ((c8_fill_mode [(S "PI_FirstName", S "Ann")]
      [[{ name := S "PI_FirstName", value := [] }]]).2.2.2
        { name := S "PI_FirstName", value := [] }).2.1 (by decide) (by decide)⟩

/-! ## C2 — fallback renderer page count -/

/-- Closed form of the fallback pagination loop: starting with `cur` rows already
on the page (at most the 22 that fit), the loop emits `1 + ceil((n + cur - 22)/22)`
pages for `n` remaining rows. -/
theorem pagesGo_length : ∀ (items cur : List (Str × Str)), cur.length ≤ 22 →
    (pagesGo items cur (88 + 30 * cur.length)).length
      = 1 + ((items.length + cur.length - 22) + 21) / 22 := by
  intro items
  induction items with
  | nil =>
      intro cur h
      simp only [pagesGo, List.length_singleton, List.length_nil]
      omega
  | cons r rest ih =>
      intro cur h
      by_cases hf : cur.length = 22
      · have hc : 88 + 30 * cur.length + 30 > 792 - 36 := by omega
        simp only [pagesGo, if_pos hc, List.length_cons]
        have h1 : (88 + 30 : Nat) = 88 + 30 * ([r] : List (Str × Str)).length := by simp
        rw [h1, ih [r] (by simp)]
        simp only [List.length_singleton]
        omega
      · have hlt : cur.length < 22 := lt_of_le_of_ne h hf
        have hc : ¬ (88 + 30 * cur.length + 30 > 792 - 36) := by omega
        simp only [pagesGo, if_neg hc]
        have h1 : 88 + 30 * cur.length + 30 = 88 + 30 * (cur ++ [r]).length := by
          simp
          omega
        rw [h1, ih (cur ++ [r]) (by simp; omega)]
        simp only [List.length_append, List.length_singleton, List.length_cons, List.length_nil]
        omega

/-- C2 (amended): the fallback renderer produces `max 1 (ceil (N / 22))` pages
for `N` non-empty fields — exactly `ceil (N / 22)` for `N ≥ 1` (so 22 rows per
page and 3 pages for 47 fields), but one page, not zero, for `N = 0`. -/
theorem c2_fallback_page_count (filename : Str) (fields : Rec) :
    (generateSimplePdf filename fields).length
      = max 1 (((display fields).length + 21) / 22) := by
  unfold generateSimplePdf
  rw [List.length_map]
  have h := pagesGo_length (display fields) [] (by simp)
  simp only [List.length_nil, Nat.mul_zero, Nat.add_zero] at h
  rw [h]
  omega

/-- Counterexample to C2 as stated: with zero non-empty fields the renderer
produces 1 page, not `ceil (0 / 22) = 0`. -/
theorem c2_counterexample :
    (generateSimplePdf (S "IWSPersonalApp_Dec2024.pdf") []).length
      ≠ ((display ([] : Rec)).length + 21) / 22 := by decide

/-! ## C3 — fallback rendering on a missing template -/

/-- The fallback pagination always emits at least one page. -/
theorem pagesGo_ne_nil : ∀ (items cur : List (Str × Str)) (y : Nat), pagesGo items cur y ≠ [] := by
  intro items
  induction items with
  | nil => intro cur y; simp [pagesGo]
  | cons r rest ih =>
      intro cur y
      by_cases hc : y + 30 > 792 - 36
      · simp [pagesGo, if_pos hc]
      · simp only [pagesGo, if_neg hc]
        exact ih _ _

/-- Every page of a fallback document carries the `_FORM_TITLES` title of its
template filename (or the humanised filename as default). -/
theorem generateSimplePdf_title (filename : Str) (fields : Rec) :
    ∀ p ∈ generateSimplePdf filename fields,
      p.title = agetD formTitles filename
        (replaceAll (S "_") (S " ") (replaceAll (S ".pdf") [] filename)) := by
  intro p hp
  unfold generateSimplePdf at hp
  obtain ⟨rs, hrs, rfl⟩ := List.mem_map.mp hp
  rfl

/-- C3 (amended): with the template asset absent, `_fill` never fails — it
returns a fallback document with at least one page — and for `IWSTrustApp`,
`AddRemoveAdvisor` and `JournalRequest` every header band's title equals the
catalog label; for `IWSPersonalApp` the fallback title differs from the label
(see the counterexample). -/
theorem c3_amended (tpl : Templates) (fields : Rec) (key : Str)
    (hk : key ∈ [S "IWSTrustApp", S "AddRemoveAdvisor", S "JournalRequest"])
    (ht : tpl (catalogFile key) = none) :
    ∃ pages, fillFn tpl (catalogFile key) fields = .fallback pages ∧ pages ≠ []
      ∧ ∀ p ∈ pages, p.title = catalogLabel key := by
  refine ⟨generateSimplePdf (catalogFile key) fields, by simp only [fillFn, ht], ?_, ?_⟩
  · unfold generateSimplePdf
    simp only [ne_eq, List.map_eq_nil_iff]
    exact pagesGo_ne_nil _ _ _
  · intro p hp
    rw [generateSimplePdf_title (catalogFile key) fields p hp]
    simp only [List.mem_cons, List.not_mem_nil, or_false] at hk
    rcases hk with rfl | rfl | rfl <;> decide

/-- Witness for C3 at the trust application with no templates available. -/
theorem c3_witness :
    ∃ pages, fillFn (fun _ => none) (catalogFile (S "IWSTrustApp")) [] = .fallback pages
      ∧ pages ≠ [] ∧ ∀ p ∈ pages, p.title = catalogLabel (S "IWSTrustApp") :=
  c3_amended (fun _ => none) [] (S "IWSTrustApp") (by decide) rfl

/-- Counterexample to C3 as stated: for `IWSPersonalApp` the fallback title is
`IWS Personal Account Application` while the catalog label is
`IWS Personal / Joint Account Application`. -/
theorem c3_counterexample :
    fillFn (fun _ => none) (catalogFile (S "IWSPersonalApp")) []
      = .fallback [{ title := S "IWS Personal Account Application", rows := [] }]
  ∧ catalogLabel (S "IWSPersonalApp") = S "IWS Personal / Joint Account Application"
  ∧ S "IWS Personal Account Application" ≠ S "IWS Personal / Joint Account Application" := by
  refine ⟨by decide, by decide, by decide⟩

/-! ## C1 — intake parsing never raises a FormatError -/

/-- The wide-layout cell loop leaves an empty party list empty. -/
theorem wideCells_nil (lbl : Str) (i : Nat) (cells : List Str) :
    wideCells lbl i cells [] = [] := by
  cases cells <;> simp [wideCells]

/-- A data row cannot create parties when there are none. -/
theorem rowStep_nil (row : List Str) : rowStep [] row = [] := by
  simp only [rowStep]
  split
  · rfl
  · exact wideCells_nil _ _ _

/-- Folding the wide-layout row loop over no parties stays empty. -/
theorem foldl_rowStep_nil (rows : List (List Str)) : rows.foldl rowStep [] = [] := by
  induction rows with
  | nil => rfl
  | cons r rs ih => rw [List.foldl_cons, rowStep_nil, ih]

/-- Collecting parties whose maps are all empty yields no records. -/
theorem collectAux_replicate (labels : List Str) : ∀ (n i : Nat),
    collectAux labels i (List.replicate n []) = [] := by
  intro n
  induction n with
  | zero => intro i; rfl
  | succ n ih =>
      intro i
      rw [List.replicate_succ]
      simp only [collectAux, ne_eq, not_true_eq_false, if_false, reduceIte]
      exact ih (i + 1)

/-- C1 (amended): `_read_intake_form` raises no `FormatError` — no such error
exists in the code.  A wide-layout table whose header has a blank/`nan`/`none`
first cell and no data rows, and any table with at most one column, return
normally with an empty record list; the caller reports the empty result as an
error message instead. -/
theorem c1_amended :
    (∀ row0 : List Str,
      ((lower ((row0.map trim).headD [])).isEmpty = true
        ∨ lower ((row0.map trim).headD []) = S "nan"
        ∨ lower ((row0.map trim).headD []) = S "none") →
      readIntakeForm [row0] = .ok [])
  ∧ (∀ table : List (List Str), table ≠ [] → (∀ row ∈ table, row.length ≤ 1) →
      readIntakeForm table = .ok []) := by
  constructor
  · intro row0 hblank
    have hne : ¬ (lower ((row0.map trim).headD []) = S "field") := by
      rcases hblank with h | h | h
      · rw [List.isEmpty_iff] at h
        rw [h]
        decide
      · rw [h]; decide
      · rw [h]; decide
    have hkv : ((lower ((row0.map trim).headD []) = S "field" : Bool)
        && (lower ((row0.map trim).getD 1 []) = S "value" : Bool)) = false := by
      rw [decide_eq_false hne, Bool.false_and]
    have hw : ((lower ((row0.map trim).headD [])).isEmpty
        || (lower ((row0.map trim).headD []) = S "nan" : Bool)
        || (lower ((row0.map trim).headD []) = S "none" : Bool)) = true := by
      rcases hblank with h | h | h
      · rw [h]; simp
      · rw [h]; simp
      · rw [h]; simp
    simp only [readIntakeForm, hkv, Bool.false_eq_true, if_false, hw, if_true,
      List.foldl_nil]
    rw [collectAux_replicate]
  · intro table hne hcols
    obtain ⟨r0, rest, rfl⟩ : ∃ r0 rest, table = r0 :: rest := by
      cases table with
      | nil => exact absurd rfl hne
      | cons a t => exact ⟨a, t, rfl⟩
    have h0 : r0.length ≤ 1 := hcols r0 (List.mem_cons_self _ _)
    have hc1 : lower ((r0.map trim).getD 1 []) = [] := by
      rw [List.getD_eq_default]
      · rfl
      · simpa using h0
    have hkv : ((lower ((r0.map trim).headD []) = S "field" : Bool)
        && (lower ((r0.map trim).getD 1 []) = S "value" : Bool)) = false := by
      rw [hc1, show (decide (([] : Str) = S "value")) = false from by decide, Bool.and_false]
    have htail : r0.tail = [] := by
      cases r0 with
      | nil => rfl
      | cons a t =>
          simp only [List.length_cons] at h0
          simp only [List.tail_cons]
          exact List.length_eq_zero.mp (by omega)
    have hr0len : r0.length - 1 = 0 := by omega
    simp only [readIntakeForm, hkv, Bool.false_eq_true, if_false]
    by_cases hbc : ((lower ((r0.map trim).headD [])).isEmpty
        || (lower ((r0.map trim).headD []) = S "nan" : Bool)
        || (lower ((r0.map trim).headD []) = S "none" : Bool)) = true
    · simp only [hbc, if_true, htail, List.map_nil, List.length_nil, List.replicate_zero,
        foldl_rowStep_nil]
      rfl
    · simp only [Bool.not_eq_true] at hbc
      simp only [hbc, Bool.false_eq_true, if_false, hr0len, List.range_zero, List.map_nil,
        List.length_nil, List.replicate_zero, foldl_rowStep_nil]
      rfl

/-- Witness for C1: a two-column header-only sheet and a one-column sheet. -/
theorem c1_witness :
    readIntakeForm [[S "", S "Client A"]] = .ok []
  ∧ readIntakeForm [[S "Name"], [S "Ann"]] = .ok [] :=
  ⟨(c1_amended).1 [S "", S "Client A"] (by decide),
   (c1_amended).2 [[S "Name"], [S "Ann"]] (by decide) (by decide)⟩

/-- Counterexample to C1 as stated: a 2-column wide-layout table with zero data
rows parses to `ok []` — a normal return with an empty record list — rather
than failing with a `FormatError`. -/
theorem c1_counterexample :
    readIntakeForm [[S "", S "Client A"]] = .ok [] := by decide

/-! ## C5 — the two name splitters -/

/-- C5 (amended): `_split_name` and the name-splitting branch of
`_normalize_fields` agree on every name whose trimmed form has no internal
whitespace (zero or one token: first name only) and on every two-token name
(first/last, no middle initial).  For three or more tokens they disagree in
general — see the counterexample. -/
theorem c5_amended (s : Str)
    (h : (∀ c ∈ trim s, isWs c = false) ∨ (tokens (trim s)).length = 2) :
    aget? (normalizeFields [(S "Full Name", s)]) (S "First Name") = some (splitName s).1
  ∧ aget? (normalizeFields [(S "Full Name", s)]) (S "Middle Initial") = none
  ∧ (splitName s).2.1 = []
  ∧ agetD (normalizeFields [(S "Full Name", s)]) (S "Last Name") [] = (splitName s).2.2 := by
  have hred : normalizeFields [(S "Full Name", s)] = step [] (S "Full Name", s) := rfl
  have hcl : classify (lower (trim (S "Full Name"))) = .nameSplit := by decide
  rw [hred, step_nameSplit [] (S "Full Name") s hcl]
  simp only [splitName]
  rcases h with hnw | h2
  · by_cases hnil : trim s = []
    · rw [hnil]
      decide
    · have ht : tokens (trim s) = [trim s] := tokens_single_of_noWs hnw hnil
      rw [ht]
      refine ⟨?_, ?_, rfl, ?_⟩
      · show aget? (aset [] (S "First Name") (trim s)) (S "First Name") = some (trim s)
        rw [aget?_aset_self]
      · show aget? (aset [] (S "First Name") (trim s)) (S "Middle Initial") = none
        rw [aget?_aset_ne _ (by decide)]
        rfl
      · show agetD (aset [] (S "First Name") (trim s)) (S "Last Name") [] = []
        unfold agetD
        rw [aget?_aset_ne _ (by decide)]
        rfl
  · obtain ⟨a, b, htk⟩ := List.length_eq_two.mp h2
    rw [htk]
    refine ⟨?_, ?_, rfl, ?_⟩
    · show aget? (aset (aset [] (S "First Name") a) (S "Last Name") b) (S "First Name") = some a
      rw [aget?_aset_ne _ (by decide), aget?_aset_self]
    · show aget? (aset (aset [] (S "First Name") a) (S "Last Name") b) (S "Middle Initial") = none
      rw [aget?_aset_ne _ (by decide), aget?_aset_ne _ (by decide)]
      rfl
    · show agetD (aset (aset [] (S "First Name") a) (S "Last Name") b) (S "Last Name") [] = b
      unfold agetD
      rw [aget?_aset_self]
      rfl

/-- Witness for C5 at the two-token name `Robert Thornton`. -/
theorem c5_witness :
    aget? (normalizeFields [(S "Full Name", S "Robert Thornton")]) (S "First Name")
      = some (splitName (S "Robert Thornton")).1
  ∧ aget? (normalizeFields [(S "Full Name", S "Robert Thornton")]) (S "Middle Initial") = none
  ∧ (splitName (S "Robert Thornton")).2.1 = []
  ∧ agetD (normalizeFields [(S "Full Name", S "Robert Thornton")]) (S "Last Name") []
      = (splitName (S "Robert Thornton")).2.2 :=
  c5_amended (S "Robert Thornton") (Or.inr (by decide))

/-- Counterexample to C5 as stated: on `Robert Alan Thornton` `_split_name`
produces middle initial `A` while `_normalize_fields` stores `Alan`. -/
theorem c5_counterexample :
    (splitName (S "Robert Alan Thornton")).2.1 = S "A"
  ∧ aget? (normalizeFields [(S "Full Name", S "Robert Alan Thornton")]) (S "Middle Initial")
      = some (S "Alan")
  ∧ (S "A" : Str) ≠ S "Alan" :=
  ⟨by decide, by decide, by decide⟩

/-! ## C6 — idempotence of the Field Normalizer -/

/-- Key membership as membership in the key list. -/
theorem keyMem_true_iff {m : Rec} {k : Str} : keyMem m k = true ↔ k ∈ keys m := by
  constructor
  · intro h
    by_contra hmem
    rw [keyMem_false_iff.mpr hmem] at h
    cases h
  · intro h
    cases hb : keyMem m k
    · exact absurd (keyMem_false_iff.mp hb) (not_not_intro h)
    · rfl

/-- A binding written by one of the simple single-assignment rules is self-stable. -/
theorem selfStep_of_simple (K w : Str) (r : Rule)
    (hr : classify (lower (trim K)) = r) (hs : isSimple r = true)
    (ht : simpleTarget r = K) (hw : trim w = w) : SelfStep K w := by
  refine ⟨?_, ?_, ?_⟩
  · intro _ acc hacc
    rw [step_simple acc K w r hr hs, ht, hw, aset_absent hacc]
  · intro hK acc
    rw [step_simple acc K w r hr hs, ht, hw, hK]
  · intro hK
    rw [hK] at hr
    rw [show classify (lower (trim IGK)) = Rule.objective from by decide] at hr
    rw [← hr] at hs
    cases hs

/-- An `Investment Goal` binding re-runs as the double `setdefault`. -/
theorem selfStep_IG (w : Str) (hw : trim w = w) : SelfStep IGK w := by
  refine ⟨fun h => absurd rfl h, fun h => absurd h (by decide), ?_⟩
  intro _ acc
  rw [step_objective acc IGK w (by decide), hw]

/-- A passthrough binding (its label matches no rule) is self-stable. -/
theorem selfStep_pass (K w : Str) (hcl : classify (lower (trim K)) = .passthrough)
    (hk : trim K = K) (hw : trim w = w) : SelfStep K w := by
  refine ⟨?_, ?_, ?_⟩
  · intro _ acc hacc
    rw [step_passthrough acc K w hcl, hk, hw, aset_absent hacc]
  · intro hK
    rw [hK] at hcl
    rw [show classify (lower (trim RTK)) = Rule.riskTol from by decide] at hcl
    cases hcl
  · intro hK
    rw [hK] at hcl
    rw [show classify (lower (trim IGK)) = Rule.objective from by decide] at hcl
    cases hcl

/-- A `Date of Birth` binding whose value is `parseDate`-stable is self-stable. -/
theorem selfStep_dob (w : Str) (hw : parseDate w = w) : SelfStep (S "Date of Birth") w := by
  have htw : trim w = w := by
    conv_lhs => rw [← hw]
    rw [parseDate_trim, hw]
  refine ⟨?_, ?_, ?_⟩
  · intro _ acc hacc
    rw [step_dob acc (S "Date of Birth") w (by decide), htw, hw, aset_absent hacc]
  · intro hK
    exact absurd hK (by decide)
  · intro hK
    exact absurd hK (by decide)

/-- Absent keys look up to `none`. -/
theorem aget?_eq_none_of_keyMem_false {m : Rec} {k : Str} (h : keyMem m k = false) :
    aget? m k = none := by
  unfold keyMem at h
  exact Option.not_isSome_iff_eq_none.mp (by simp [h])

/-- A `Notes` binding is self-stable: with no prior `Notes` key the accumulator
branch writes the value verbatim. -/
theorem selfStep_notes (w : Str) (hw : trim w = w) : SelfStep (S "Notes") w := by
  refine ⟨?_, ?_, ?_⟩
  · intro _ acc hacc
    rw [step_notes acc (S "Notes") w (by decide)]
    show aset acc (S "Notes")
      (if agetD acc (S "Notes") [] ≠ [] then trim (agetD acc (S "Notes") [] ++ S "  " ++ trim w)
       else trim w) = acc ++ [(S "Notes", w)]
    have he : agetD acc (S "Notes") [] = [] := by
      unfold agetD
      rw [aget?_eq_none_of_keyMem_false hacc]
      rfl
    rw [he, if_neg (by simp), hw, aset_absent hacc]
  · intro hK
    exact absurd hK (by decide)
  · intro hK
    exact absurd hK (by decide)

/-- The empty key list satisfies the placement invariant. -/
theorem placeOK_nil : PlaceOK [] := by
  intro l1 l2 h
  exact absurd h.symm (by simp)

/-- `head?` of an append keeps the head of a non-empty prefix. -/
theorem head?_append_of_head? {l1 : List Str} {c : Str} (h : l1.head? = some c) (l2 : List Str) :
    (l1 ++ l2).head? = some c := by
  cases l1 with
  | nil => cases h
  | cons a t => simpa using h

/-- Appending any key other than `Investment Goal` preserves the placement invariant. -/
theorem placeOK_append_ne {ks : List Str} (h : PlaceOK ks) {K : Str} (hK : K ≠ IGK) :
    PlaceOK (ks ++ [K]) := by
  intro l1 l2 h2
  rcases List.eq_nil_or_concat l2 with rfl | ⟨l2', b, rfl⟩
  · obtain ⟨h3, h4⟩ := List.append_inj' h2 rfl
    simp only [List.cons.injEq, and_true] at h4
    exact absurd h4 hK
  · rw [List.concat_eq_append] at h2 ⊢
    rw [show l1 ++ IGK :: (l2' ++ [b]) = (l1 ++ IGK :: l2') ++ [b] by simp] at h2
    obtain ⟨h3, _⟩ := List.append_inj' h2 rfl
    rcases h l1 l2' h3 with h4 | h4
    · exact Or.inl h4
    · right
      cases l2' with
      | nil => cases h4
      | cons c t => simpa using h4

/-- Appending `Investment Goal` preserves placement when `Risk Tolerance` is already present. -/
theorem placeOK_append_IG_of_RT {ks : List Str} (h : PlaceOK ks) (hRT : RTK ∈ ks) :
    PlaceOK (ks ++ [IGK]) := by
  intro l1 l2 h2
  rcases List.eq_nil_or_concat l2 with rfl | ⟨l2', b, rfl⟩
  · obtain ⟨h3, _⟩ := List.append_inj' h2 rfl
    exact Or.inl (h3 ▸ hRT)
  · rw [List.concat_eq_append] at h2 ⊢
    rw [show l1 ++ IGK :: (l2' ++ [b]) = (l1 ++ IGK :: l2') ++ [b] by simp] at h2
    obtain ⟨h3, _⟩ := List.append_inj' h2 rfl
    rcases h l1 l2' h3 with h4 | h4
    · exact Or.inl h4
    · right
      cases l2' with
      | nil => cases h4
      | cons c t => simpa using h4

/-- Appending `Investment Goal` immediately followed by `Risk Tolerance` preserves placement. -/
theorem placeOK_append_IGRT {ks : List Str} (h : PlaceOK ks) : PlaceOK (ks ++ [IGK, RTK]) := by
  intro l1 l2 h2
  rcases List.eq_nil_or_concat l2 with rfl | ⟨l2', b, rfl⟩
  · obtain ⟨_, h4⟩ := List.append_inj' (show (ks ++ [IGK]) ++ [RTK] = l1 ++ [IGK] by
      rw [List.append_assoc]; exact h2) rfl
    simp only [List.cons.injEq, and_true] at h4
    exact absurd h4 (by decide)
  · rw [List.concat_eq_append] at h2 ⊢
    have h2' : (ks ++ [IGK]) ++ [RTK] = (l1 ++ IGK :: l2') ++ [b] := by
      rw [List.append_assoc, List.append_assoc]
      exact h2
    obtain ⟨h3, hb⟩ := List.append_inj' h2' rfl
    simp only [List.cons.injEq, and_true] at hb
    rcases List.eq_nil_or_concat l2' with rfl | ⟨l2'', c, rfl⟩
    · obtain ⟨h5, _⟩ := List.append_inj' h3 rfl
      right
      rw [hb]
      rfl
    · rw [List.concat_eq_append] at h3
      rw [show l1 ++ IGK :: (l2'' ++ [c]) = (l1 ++ IGK :: l2'') ++ [c] by simp] at h3
      obtain ⟨h5, _⟩ := List.append_inj' h3 rfl
      rcases h l1 l2'' h5 with h6 | h6
      · exact Or.inl h6
      · right
        cases l2'' with
        | nil => cases h6
        | cons d t =>
            rw [List.concat_eq_append]
            simpa using h6

/-- Appending a fresh self-stable non-`Investment Goal` binding preserves `Canon`. -/
theorem canon_append_one {m : Rec} {K w : Str} (hC : Canon m) (hS : SelfStep K w)
    (habs : keyMem m K = false) (hKIG : K ≠ IGK) : Canon (m ++ [(K, w)]) := by
  obtain ⟨hn, hs, hp⟩ := hC
  refine ⟨?_, ?_, ?_⟩
  · rw [keys_append]
    rw [List.nodup_append]
    refine ⟨hn, by simp [keys], ?_⟩
    intro x hx
    simp only [keys, List.map_cons, List.map_nil, List.mem_singleton]
    intro he
    subst he
    exact (keyMem_false_iff.mp habs) hx
  · intro p hp2
    rcases List.mem_append.mp hp2 with h | h
    · exact hs p h
    · rw [List.mem_singleton.mp h]
      exact hS
  · rw [keys_append]
    exact placeOK_append_ne hp hKIG

/-- `aset` with a self-stable non-`Investment Goal` binding preserves `Canon`. -/
theorem canon_aset {m : Rec} {K w : Str} (hC : Canon m) (hS : SelfStep K w)
    (hKIG : K ≠ IGK) : Canon (aset m K w) := by
  by_cases hmem : keyMem m K = true
  · obtain ⟨hn, hs, hp⟩ := hC
    have hk : keys (aset m K w) = keys m := by rw [keys_aset, if_pos hmem]
    refine ⟨hk ▸ hn, ?_, hk ▸ hp⟩
    intro p hp2
    rcases mem_aset hp2 with h | h
    · exact hs p h
    · rw [h]
      exact hS
  · have habs : keyMem m K = false := by simpa using hmem
    rw [aset_absent habs]
    exact canon_append_one hC hS habs hKIG

/-- `asetd` with a self-stable non-`Investment Goal` binding preserves `Canon`. -/
theorem canon_asetd {m : Rec} {K w : Str} (hC : Canon m) (hS : SelfStep K w)
    (hKIG : K ≠ IGK) : Canon (asetd m K w) := by
  by_cases hmem : keyMem m K = true
  · rw [asetd_present hmem]
    exact hC
  · have habs : keyMem m K = false := by simpa using hmem
    rw [asetd_absent habs]
    exact canon_append_one hC hS habs hKIG

/-- The `Investment Goal` / `Risk Tolerance` double default preserves `Canon`. -/
theorem canon_objective {m : Rec} {v : Str} (hC : Canon m) (hv : trim v = v) :
    Canon (asetd (asetd m IGK v) RTK v) := by
  have hRTss : SelfStep RTK v := selfStep_of_simple RTK v .riskTol (by decide) rfl rfl hv
  by_cases hIG : keyMem m IGK = true
  · rw [asetd_present hIG]
    exact canon_asetd hC hRTss (by decide)
  · have hIGf : keyMem m IGK = false := by simpa using hIG
    rw [asetd_absent hIGf]
    by_cases hRT : keyMem m RTK = true
    · have h2 : keyMem (m ++ [(IGK, v)]) RTK = true := by
        rw [keyMem_append, hRT, Bool.true_or]
      rw [asetd_present h2]
      obtain ⟨hn, hs, hp⟩ := hC
      refine ⟨?_, ?_, ?_⟩
      · rw [keys_append, List.nodup_append]
        refine ⟨hn, by simp [keys], ?_⟩
        intro x hx
        simp only [keys, List.map_cons, List.map_nil, List.mem_singleton]
        intro he
        subst he
        exact (keyMem_false_iff.mp hIGf) hx
      · intro p hp2
        rcases List.mem_append.mp hp2 with h | h
        · exact hs p h
        · rw [List.mem_singleton.mp h]
          exact selfStep_IG v hv
      · rw [keys_append]
        exact placeOK_append_IG_of_RT hp (keyMem_true_iff.mp hRT)
    · have hRTf : keyMem m RTK = false := by simpa using hRT
      have h2 : keyMem (m ++ [(IGK, v)]) RTK = false := by
        rw [keyMem_append, hRTf, Bool.false_or]
        simp [keyMem, aget?, show ¬ (IGK = RTK) from by decide]
      rw [asetd_absent h2, List.append_assoc]
      obtain ⟨hn, hs, hp⟩ := hC
      refine ⟨?_, ?_, ?_⟩
      · rw [keys_append, List.nodup_append]
        refine ⟨hn, by simp [keys, show ¬ (IGK = RTK) from by decide], ?_⟩
        intro x hx hmem
        simp only [keys, List.map_append, List.map_cons, List.map_nil, List.mem_append,
          List.mem_cons, List.not_mem_nil, or_false] at hmem
        rcases hmem with rfl | rfl
        · exact (keyMem_false_iff.mp hIGf) hx
        · exact (keyMem_false_iff.mp hRTf) hx
      · intro p hp2
        rcases List.mem_append.mp hp2 with h | h
        · exact hs p h
        · rcases List.mem_cons.mp h with h3 | h3
          · rw [h3]
            exact selfStep_IG v hv
          · rw [List.mem_singleton.mp h3]
            exact hRTss
      · rw [keys_append]
        exact placeOK_append_IGRT hp

/-- The defaulted last element of a non-empty list is one of its elements. -/
theorem getLastD_cons_mem (b : Str) (rest : List Str) : (b :: rest).getLastD b ∈ b :: rest := by
  induction rest generalizing b with
  | nil => simp [List.getLastD]
  | cons c cs ih =>
      rw [List.getLastD_cons]
      exact List.mem_cons_of_mem _ (ih c)

/-- Every branch of the normalizer loop body preserves `Canon`. -/
theorem canon_step (out : Rec) (key val : Str) (hC : Canon out) :
    Canon (step out (key, val)) := by
  cases hr : classify (lower (trim key)) with
  | nameSplit =>
      rw [step_nameSplit out key val hr]
      cases htk : tokens (trim val) with
      | nil =>
          exact canon_aset hC
            (selfStep_of_simple _ _ .first (by decide) rfl rfl (trim_idem val)) (by decide)
      | cons a t =>
          cases t with
          | nil =>
              exact canon_aset hC
                (selfStep_of_simple _ _ .first (by decide) rfl rfl (trim_idem val)) (by decide)
          | cons b rest =>
              have hma : a ∈ tokens (trim val) := by rw [htk]; exact List.mem_cons_self _ _
              have hmb : b ∈ tokens (trim val) := by rw [htk]; simp
              have hml : (b :: rest).getLastD b ∈ tokens (trim val) := by
                rw [htk]
                exact List.mem_cons_of_mem _ (getLastD_cons_mem b rest)
              have c1 : Canon (aset out (S "First Name") a) :=
                canon_aset hC (selfStep_of_simple _ _ .first (by decide) rfl rfl
                  (tokens_trim_stable hma)) (by decide)
              have c2 : Canon (aset (aset out (S "First Name") a) (S "Last Name")
                  ((b :: rest).getLastD b)) :=
                canon_aset c1 (selfStep_of_simple _ _ .last (by decide) rfl rfl
                  (tokens_trim_stable hml)) (by decide)
              show Canon (if rest.length = 1 then
                  aset (aset (aset out (S "First Name") a) (S "Last Name")
                    ((b :: rest).getLastD b)) (S "Middle Initial") b
                else aset (aset out (S "First Name") a) (S "Last Name") ((b :: rest).getLastD b))
              by_cases hlen : rest.length = 1
              · rw [if_pos hlen]
                exact canon_aset c2 (selfStep_pass _ _ (by decide) (by decide)
                  (tokens_trim_stable hmb)) (by decide)
              · rw [if_neg hlen]
                exact c2
  | dob =>
      rw [step_dob out key val hr]
      exact canon_aset hC (selfStep_dob _ (parseDate_idem (trim val))) (by decide)
  | objective =>
      rw [step_objective out key val hr]
      exact canon_objective hC (trim_idem val)
  | advisor =>
      rw [step_advisor out key val hr]
      exact canon_asetd hC
        (selfStep_of_simple _ _ .referral (by decide) rfl rfl (trim_idem val)) (by decide)
  | notes =>
      rw [step_notes out key val hr]
      show Canon (aset out (S "Notes")
        (if agetD out (S "Notes") [] ≠ [] then trim (agetD out (S "Notes") [] ++ S "  " ++ trim val)
         else trim val))
      refine canon_aset hC (selfStep_notes _ ?_) (by decide)
      by_cases he : agetD out (S "Notes") [] ≠ []
      · rw [if_pos he]
        exact trim_idem _
      · rw [if_neg he]
        exact trim_idem val
  | passthrough =>
      rw [step_passthrough out key val hr]
      have hKIG : trim key ≠ IGK := by
        intro heq
        rw [heq] at hr
        rw [show classify (lower IGK) = Rule.objective from by decide] at hr
        cases hr
      refine canon_aset hC (selfStep_pass _ _ ?_ (trim_idem key) (trim_idem val)) hKIG
      rw [trim_idem]
      exact hr
  | first =>
      rw [step_simple out key val .first hr rfl]
      exact canon_aset hC
        (selfStep_of_simple _ _ .first (by decide) rfl rfl (trim_idem val)) (by decide)
  | last =>
      rw [step_simple out key val .last hr rfl]
      exact canon_aset hC
        (selfStep_of_simple _ _ .last (by decide) rfl rfl (trim_idem val)) (by decide)
  | address =>
      rw [step_simple out key val .address hr rfl]
      exact canon_aset hC
        (selfStep_of_simple _ _ .address (by decide) rfl rfl (trim_idem val)) (by decide)
  | city =>
      rw [step_simple out key val .city hr rfl]
      exact canon_aset hC
        (selfStep_of_simple _ _ .city (by decide) rfl rfl (trim_idem val)) (by decide)
  | state =>
      rw [step_simple out key val .state hr rfl]
      exact canon_aset hC
        (selfStep_of_simple _ _ .state (by decide) rfl rfl (trim_idem val)) (by decide)
  | zip =>
      rw [step_simple out key val .zip hr rfl]
      exact canon_aset hC
        (selfStep_of_simple _ _ .zip (by decide) rfl rfl (trim_idem val)) (by decide)
  | phone =>
      rw [step_simple out key val .phone hr rfl]
      exact canon_aset hC
        (selfStep_of_simple _ _ .phone (by decide) rfl rfl (trim_idem val)) (by decide)
  | email =>
      rw [step_simple out key val .email hr rfl]
      exact canon_aset hC
        (selfStep_of_simple _ _ .email (by decide) rfl rfl (trim_idem val)) (by decide)
  | income =>
      rw [step_simple out key val .income hr rfl]
      exact canon_aset hC
        (selfStep_of_simple _ _ .income (by decide) rfl rfl (trim_idem val)) (by decide)
  | networth =>
      rw [step_simple out key val .networth hr rfl]
      exact canon_aset hC
        (selfStep_of_simple _ _ .networth (by decide) rfl rfl (trim_idem val)) (by decide)
  | liquid =>
      rw [step_simple out key val .liquid hr rfl]
      exact canon_aset hC
        (selfStep_of_simple _ _ .liquid (by decide) rfl rfl (trim_idem val)) (by decide)
  | employer =>
      rw [step_simple out key val .employer hr rfl]
      exact canon_aset hC
        (selfStep_of_simple _ _ .employer (by decide) rfl rfl (trim_idem val)) (by decide)
  | occupation =>
      rw [step_simple out key val .occupation hr rfl]
      exact canon_aset hC
        (selfStep_of_simple _ _ .occupation (by decide) rfl rfl (trim_idem val)) (by decide)
  | riskTol =>
      rw [step_simple out key val .riskTol hr rfl]
      exact canon_aset hC
        (selfStep_of_simple _ _ .riskTol (by decide) rfl rfl (trim_idem val)) (by decide)
  | horizon =>
      rw [step_simple out key val .horizon hr rfl]
      exact canon_aset hC
        (selfStep_of_simple _ _ .horizon (by decide) rfl rfl (trim_idem val)) (by decide)
  | referral =>
      rw [step_simple out key val .referral hr rfl]
      exact canon_aset hC
        (selfStep_of_simple _ _ .referral (by decide) rfl rfl (trim_idem val)) (by decide)
  | was =>
      rw [step_simple out key val .was hr rfl]
      exact canon_aset hC
        (selfStep_of_simple _ _ .was (by decide) rfl rfl (trim_idem val)) (by decide)
  | fee =>
      rw [step_simple out key val .fee hr rfl]
      exact canon_aset hC
        (selfStep_of_simple _ _ .fee (by decide) rfl rfl (trim_idem val)) (by decide)

/-- Rebuilding lemma: folding the normalizer over a `Canon` record starting from
any prefix of it reproduces the record. The `Investment Goal` case consumes the
adjacent `Risk Tolerance` binding guaranteed by the placement invariant. -/
theorem rebuild : ∀ (n : Nat) (t acc : Rec), t.length ≤ n → Canon (acc ++ t) →
    t.foldl step acc = acc ++ t := by
  intro n
  induction n with
  | zero =>
      intro t acc hlen hC
      cases t with
      | nil => simp
      | cons p t' => simp at hlen
  | succ n ih =>
      intro t acc hlen hC
      cases t with
      | nil => simp
      | cons p t' =>
          obtain ⟨k, v⟩ := p
          have hSS : SelfStep k v := hC.2.1 (k, v) (by simp)
          have hkacc : keyMem acc k = false := by
            rw [keyMem_false_iff]
            intro hmem2
            have hnod := hC.1
            rw [keys_append, List.nodup_append] at hnod
            exact hnod.2.2 hmem2 (by simp [keys])
          by_cases hkIG : k = IGK
          · subst hkIG
            rw [List.foldl_cons, hSS.2.2 rfl acc, asetd_absent hkacc]
            by_cases hRT : keyMem acc RTK = true
            · rw [asetd_present (by rw [keyMem_append, hRT, Bool.true_or])]
              have heq : (acc ++ [(IGK, v)]) ++ t' = acc ++ (IGK, v) :: t' := by simp
              rw [ih t' (acc ++ [(IGK, v)]) (by simp at hlen; omega)
                (by rw [heq]; exact hC), heq]
            · have hRTf : keyMem acc RTK = false := by simpa using hRT
              have hpl := hC.2.2 (keys acc) (keys t') (by rw [keys_append]; rfl)
              rcases hpl with hin | hhead
              · exact absurd hin (keyMem_false_iff.mp hRTf)
              · cases t' with
                | nil => cases hhead
                | cons q t'' =>
                    obtain ⟨k2, r⟩ := q
                    have hk2 : k2 = RTK := by simpa [keys] using hhead
                    subst hk2
                    have hRT2 : keyMem (acc ++ [(IGK, v)]) RTK = false := by
                      rw [keyMem_append, hRTf, Bool.false_or]
                      simp [keyMem, aget?, show ¬ (IGK = RTK) from by decide]
                    rw [asetd_absent hRT2, List.foldl_cons]
                    have hSS2 : SelfStep RTK r := hC.2.1 (RTK, r) (by simp)
                    rw [hSS2.2.1 rfl]
                    rw [show (acc ++ [(IGK, v)]) ++ [(RTK, v)]
                      = (acc ++ [(IGK, v)]) ++ (RTK, v) :: [] from rfl]
                    rw [aset_inplace hRT2 v r []]
                    have heq : ((acc ++ [(IGK, v)]) ++ (RTK, r) :: []) ++ t''
                        = acc ++ (IGK, v) :: (RTK, r) :: t'' := by simp
                    rw [ih t'' ((acc ++ [(IGK, v)]) ++ (RTK, r) :: [])
                      (by simp at hlen; omega) (by rw [heq]; exact hC), heq]
          · rw [List.foldl_cons, hSS.1 hkIG acc hkacc]
            have heq : (acc ++ [(k, v)]) ++ t' = acc ++ (k, v) :: t' := by simp
            rw [ih t' (acc ++ [(k, v)]) (by simp at hlen; omega) (by rw [heq]; exact hC), heq]

/-- The empty record is `Canon`. -/
theorem canon_nil : Canon ([] : Rec) := ⟨by simp [keys], by simp, placeOK_nil⟩

/-- The normalizer fold preserves `Canon` from any `Canon` accumulator. -/
theorem canon_foldl (raw : Rec) : ∀ acc : Rec, Canon acc → Canon (raw.foldl step acc) := by
  induction raw with
  | nil => intro acc h; exact h
  | cons p t ih =>
      intro acc h
      obtain ⟨k, v⟩ := p
      rw [List.foldl_cons]
      exact ih _ (canon_step acc k v h)

/-- Every `_normalize_fields` output satisfies `Canon`. -/
theorem canon_normalize (raw : Rec) : Canon (normalizeFields raw) :=
  canon_foldl raw [] canon_nil

/-- C6: `_normalize_fields` is idempotent — re-running the normalizer on its own
output reproduces that output exactly (same bindings, same values, same order),
for every raw label→value record. -/
theorem c6_idempotent (raw : Rec) :
    normalizeFields (normalizeFields raw) = normalizeFields raw := by
  have hC : Canon ([] ++ normalizeFields raw) := by
    rw [List.nil_append]
    exact canon_normalize raw
  have h := rebuild (normalizeFields raw).length (normalizeFields raw) [] le_rfl hC
  rw [List.nil_append] at h
  exact h

end WA
